import Mathlib

/-!
Verification of the resolution search engine of `getnative/app.py`.

Real error statistics are IEEE doubles in the source; the embedding models
them as exact rationals (`ℚ`), the standard idealization for the arithmetic
identities stated by the specification.  Integer quantities stay `ℤ`/`ℕ`.
All definitions are translated from the source file; the one spec-side
definition (`rightEdgeFrames`) is marked as such.
-/

/-- Truncation toward zero of a rational, the effect of numpy's `dtype=int`
cast (a C cast) applied to a real value. -/
def truncQ (q : ℚ) : ℤ := if 0 ≤ q then ⌊q⌋ else ⌈q⌉

/-- `np.linspace(start, stop, num, dtype=int, endpoint=False)`: the points
`start + i * (stop - start) / num` for `i = 0 .. num - 1`, truncated to
integers.  (`num = 0` yields the empty array.) -/
def linspaceTrunc (start stop : ℤ) (num : ℕ) : List ℤ :=
  (List.range num).map fun i : ℕ =>
    truncQ ((start : ℚ) + (i : ℚ) * ((stop : ℚ) - start) / (num : ℚ))

/-- Frame selection of `getnative`
(`np.linspace(args.fstart, args.fend, args.fsamples + 1, dtype=int, endpoint=False)[1:]`). -/
def selectFrames (fstart fend : ℤ) (fsamples : ℕ) : List ℤ :=
  (linspaceTrunc fstart fend (fsamples + 1)).drop 1

/-- Follows the spec's words (refinement comparison for the frame selector):
the right edges obtained by evenly subdividing `[start, end)` into `n` equal
intervals, truncated to integer frame indices. -/
def rightEdgeFrames (fstart fend : ℤ) (n : ℕ) : List ℤ :=
  (List.range n).map fun i : ℕ =>
    truncQ ((fstart : ℚ) + ((i : ℚ) + 1) * ((fend : ℚ) - fstart) / (n : ℚ))

/-- Python `a // b` (floor division) on integers. -/
def pyFloorDiv (a b : ℤ) : ℤ := a.fdiv b

/-- Defaulting of `args.min_h` in `getnative`:
`if args.min_h < 0: args.min_h = int(src.height // 2)`. -/
def defMinH (srcHeight minH : ℤ) : ℤ := if minH < 0 then pyFloorDiv srcHeight 2 else minH

/-- Defaulting of `args.max_h` in `getnative`:
`if args.max_h < 0: args.max_h = int(src.height * 9 // 10)`. -/
def defMaxH (srcHeight maxH : ℤ) : ℤ := if maxH < 0 then pyFloorDiv (srcHeight * 9) 10 else maxH

/-- Error raised (or absence of error) by the configuration stage of
`getnative` before any scan runs.  `valueError` stands for the `ValueError`
that `np.linspace` raises on a negative sample number; the two
`GetnativeException` cases are the explicit `raise` statements of the
source.  (The I/O-side checks — write permission, `imwri`, `descale`
availability — touch the filesystem and plugin system and are outside the
embedded search engine.) -/
inductive SetupError where
  | valueError : SetupError
  | minHNotBelowSourceHeight : SetupError
  | minHNotBelowMaxH : SetupError
deriving DecidableEq

/-- Configuration produced by the setup stage of `getnative`. -/
structure SetupResult where
  frames : List ℤ
  ar : ℚ
  minH : ℤ
  maxH : ℤ
deriving DecidableEq

/-- The configuration-validation prefix of `getnative` (defaulting of
`fend`, frame selection, defaulting of `ar`, `min_h`, `max_h`, the two
`GetnativeException` checks and the `max_h` clamp), translated line by line
from the source. -/
def getnativeSetup (fstart : ℤ) (fend : Option ℤ) (fsamples : ℤ) (ar : ℚ)
    (minH maxH srcWidth srcHeight numFrames : ℤ) : Except SetupError SetupResult :=
  let fend' := fend.getD numFrames
  if fsamples + 1 < 0 then Except.error SetupError.valueError
  else
    let frames := selectFrames fstart fend' fsamples.toNat
    let ar' := if ar = 0 then (srcWidth : ℚ) / (srcHeight : ℚ) else ar
    let minH' := defMinH srcHeight minH
    let maxH' := defMaxH srcHeight maxH
    if srcHeight ≤ minH' then Except.error SetupError.minHNotBelowSourceHeight
    else if maxH' ≤ minH' then Except.error SetupError.minHNotBelowMaxH
    else
      let maxH'' := if srcHeight < maxH' then srcHeight else maxH'
      Except.ok ⟨frames, ar', minH', maxH''⟩

/-- Whether an `Except` carries a value (no exception was raised). -/
def exceptOk {ε α : Type} : Except ε α → Bool
  | Except.ok _ => true
  | Except.error _ => false

/-- The ratio sequence of `GetNative.analyze_results`:
`ratios = [0.0]`, then `ratios.append(current and last / current)` for each
consecutive pair, i.e. `0` when the current value is `0` and
`last / current` otherwise. -/
def ratiosOf (vals : List ℚ) : List ℚ :=
  0 :: ((List.range (vals.length - 1)).map fun i =>
    let last := vals.getD i 0
    let current := vals.getD (i + 1) 0
    if current = 0 then current else last / current)

/-- `sorted(ratios, reverse=True)` of `GetNative.analyze_results`. -/
def sortedDesc (l : List ℚ) : List ℚ := List.insertionSort (fun a b => b ≤ a) l

/-- The `differences` list of `GetNative.analyze_results`: among the
descending-sorted ratios, those with `s - 1 > (max_difference - 1) * 0.33`,
keeping at most the top `5`. -/
def differencesOf (vals : List ℚ) : List ℚ :=
  let sorted := sortedDesc (ratiosOf vals)
  let maxDifference := sorted.headD 0
  (sorted.filter fun s => decide ((maxDifference - 1) * (33 / 100) < s - 1)).take 5

/-- Python's `list.index`: index of the first occurrence of a value. -/
def idxOf (a : ℚ) : List ℚ → ℕ
  | [] => 0
  | b :: l => if a = b then 0 else idxOf a l + 1

/-- One iteration of the deduplication loop of `GetNative.analyze_results`:
`current = ratios.index(diff)`; reject `current` if it lies strictly within
20 positions of an entry already in the accumulated list, otherwise append
it. -/
def resStep (ratios : List ℚ) (acc : List ℕ) (diff : ℚ) : List ℕ :=
  let current := idxOf diff ratios
  if acc.any fun res => decide ((res : ℤ) - 20 < (current : ℤ)) &&
      decide ((current : ℤ) < (res : ℤ) + 20)
  then acc else acc ++ [current]

/-- The full deduplication loop over the `differences` list. -/
def addResolutions (ratios diffs : List ℚ) (resolutions : List ℕ) : List ℕ :=
  diffs.foldl (resStep ratios) resolutions

/-- The accumulated resolution list (`self.resolutions`) as it stands after
one call of `GetNative.analyze_results` on curve `vals`. -/
def analyzeNewResolutions (vals : List ℚ) (resolutions : List ℕ) : List ℕ :=
  addResolutions (ratiosOf vals) (differencesOf vals) resolutions

/-- Maximum of a list of rationals the way `np.argmax` sees it (the fold
starts from the first element; the default only pads the empty case). -/
def listMax (l : List ℚ) : ℚ := l.foldl max (l.headD 0)

/-- `np.argmax`: index of the first occurrence of the maximum. -/
def argmaxIdx (l : List ℚ) : ℕ := idxOf (listMax l) l

/-- Minimum of a list of rationals, for `np.argmin`. -/
def listMin (l : List ℚ) : ℚ := l.foldl min (l.headD 0)

/-- `np.argmin`: index of the first occurrence of the minimum. -/
def argminIdx (l : List ℚ) : ℕ := idxOf (listMin l) l

/-- `GetNative.analyze_results`.  Returns
`(ratios, resolutions, bob, bob_resolution)`; `none` models the exceptions
the source can raise here: `np.argmax` on an empty selection (`ValueError`
when the accumulated list is still empty), fancy indexing
`np.array(ratios)[self.resolutions]` with an out-of-range entry, and
`vals[bob_idx]` out of range.  Note the source computes `bob` as
`vals[bob_idx]` where `bob_idx` is the position of the winner inside
`self.resolutions`, not the winning scan index itself. -/
def analyzeResults (steps : ℕ) (vals : List ℚ) (offset : ℕ) (resolutions : List ℕ) :
    Option (List ℚ × List ℕ × ℚ × ℕ) :=
  if (analyzeNewResolutions vals resolutions).any (fun r => decide ((ratiosOf vals).length ≤ r))
  then none
  else if analyzeNewResolutions vals resolutions = [] then none
  else
    match vals[argmaxIdx ((analyzeNewResolutions vals resolutions).map
        fun r => (ratiosOf vals).getD r 0)]? with
    | none => none
    | some bob =>
      some (ratiosOf vals, analyzeNewResolutions vals resolutions, bob,
        (analyzeNewResolutions vals resolutions).getD
          (argmaxIdx ((analyzeNewResolutions vals resolutions).map
            fun r => (ratiosOf vals).getD r 0)) 0 * steps + offset)

/-- Minimum-separation invariant of the accumulated resolution list: no two
entries within 20 index positions of each other. -/
def Sep20 (l : List ℕ) : Prop := l.Pairwise fun a b => 20 ≤ Nat.dist a b

instance sep20Decidable (l : List ℕ) : Decidable (Sep20 l) :=
  inferInstanceAs (Decidable (l.Pairwise fun a b => 20 ≤ Nat.dist a b))

/-- State of the bounded-concurrency evaluation loop of `GetNative.run`:
the next candidate index to issue, the indices of in-flight requests
(`tasks_pending` / `futures`), and the indices whose `(index, error)` pair
has been recorded into `vals`. -/
structure SchedState where
  nextIdx : ℕ
  pending : Finset ℕ
  collected : Finset ℕ
deriving DecidableEq

/-- One step of the evaluation loop of `GetNative.run` for `m` candidates
and concurrency cap `cap` (`core.num_threads + 2` in the source).
`issue` wraps `full_clip.get_frame_async(frame_index)` into a new in-flight
future (the loop only reaches it while the in-flight count is below the
cap, since the inner `while` drains first).  `drain` models one
`asyncio.wait(..., FIRST_COMPLETED)` round: an arbitrary nonempty subset of
the in-flight requests completes and their `(index, error)` pairs are
recorded.  Quantifying over all `drain` choices models every possible
completion order. -/
inductive SchedStep (m cap : ℕ) : SchedState → SchedState → Prop where
  | issue (s : SchedState) (hm : s.nextIdx < m) (hc : s.pending.card < cap) :
      SchedStep m cap s ⟨s.nextIdx + 1, insert s.nextIdx s.pending, s.collected⟩
  | drain (s : SchedState) (done : Finset ℕ) (hne : done.Nonempty) (hsub : done ⊆ s.pending) :
      SchedStep m cap s ⟨s.nextIdx, s.pending \ done, s.collected ∪ done⟩

/-- Initial scheduler state: nothing issued, nothing collected. -/
def schedInit : SchedState := ⟨0, ∅, ∅⟩

/-- States the evaluation loop can reach from its initial state. -/
def SchedReachable (m cap : ℕ) (s : SchedState) : Prop :=
  Relation.ReflTransGen (SchedStep m cap) schedInit s

/-- The error curve extracted at the end of the loop:
`vals = [v for _, v in sorted(vals)]` — the collected `(index, error)`
pairs sorted by candidate index, keeping the error of each index (the
oracle value `err` is a deterministic function of the candidate index). -/
def errorCurve (err : ℕ → ℚ) (s : SchedState) : List ℚ :=
  (s.collected.sort (· ≤ ·)).map err

/-- Invariant of the evaluation loop: the issue counter never passes `m`,
the in-flight count never exceeds the cap, no index is both in flight and
collected, and together the in-flight and collected indices are exactly the
issued ones. -/
def SchedInv (m cap : ℕ) (s : SchedState) : Prop :=
  s.nextIdx ≤ m ∧ s.pending.card ≤ cap ∧ Disjoint s.pending s.collected ∧
    s.pending ∪ s.collected = Finset.range s.nextIdx

/-- The 3-point smoothing convolution of the width scan:
`np.convolve(vals, [0.5, 0., 0.5], 'same')`, with zero padding outside the
curve. -/
def convolveSame (v : List ℚ) : List ℚ :=
  (List.range v.length).map fun i =>
    (1 / 2) * (if i = 0 then 0 else v.getD (i - 1) 0) + 0 * v.getD i 0 +
      (1 / 2) * v.getD (i + 1) 0

/-- Elementwise division of two equal-length curves (numpy `/` on arrays). -/
def elemDiv (a b : List ℚ) : List ℚ := List.zipWith (· / ·) a b

/-- The width-scan normalization `vals = vals / np.convolve(vals, [0.5, 0., 0.5], 'same')`. -/
def widthNormalize (v : List ℚ) : List ℚ := elemDiv v (convolveSame v)

/-- `best_w = np.argmin(vals) * self.steps + w_min` of the width scan. -/
def bestWidth (v : List ℚ) (steps wMin : ℤ) : ℤ := (argminIdx v : ℤ) * steps + wMin

/-- Python's `round` (round half to even), as applied by `int(round(w))` in
`GetNative.getw`. -/
def roundHalfEven (q : ℚ) : ℤ :=
  if q - ⌊q⌋ < 1 / 2 then ⌊q⌋
  else if 1 / 2 < q - ⌊q⌋ then ⌊q⌋ + 1
  else if ⌊q⌋ % 2 = 0 then ⌊q⌋ else ⌊q⌋ + 1

/-- `GetNative.getw`: derive a width from a height via the current aspect
ratio, round it, optionally force it even (`w // 2 * 2`), and cap it at the
source width. -/
def getw (ar : ℚ) (srcWidth : ℤ) (h : ℤ) (onlyEven : Bool) : ℤ :=
  let w := roundHalfEven ((h : ℚ) * ar)
  let w := if onlyEven then pyFloorDiv w 2 * 2 else w
  min w srcWidth

/-- The tail of `GetNative.run`: from the final best-of-bests resolution,
the aspect ratio as captured at the start of the run (`ar = self.ar` before
the passes loop) and the final aspect ratio, produce the returned tuple
`(bob_resolution, self.getw(bob_resolution), bob_mae, overstretched)` with
`overstretched = (w > h * (ar + 0.2))`. -/
def runClassify (arStart arFinal : ℚ) (srcWidth bobResolution : ℤ) (bobMae : ℚ) :
    ℤ × ℤ × ℚ × Bool :=
  let h := bobResolution
  let w := getw arFinal srcWidth bobResolution true
  let overstretched := decide ((h : ℚ) * (arStart + 2 / 10) < (w : ℚ))
  (bobResolution, getw arFinal srcWidth bobResolution true, bobMae, overstretched)

/-- The near-upper-bound classification of `getnative`:
`near_ub = (h > args.max_h - args.ub_thr)`. -/
def nearUbOf (h maxH ubThr : ℤ) : Bool := decide (maxH - ubThr < h)

lemma schedInv_init (m cap : ℕ) : SchedInv m cap schedInit :=
  ⟨Nat.zero_le m, by simp [schedInit], by simp [schedInit], by simp [schedInit]⟩

lemma schedInv_step {m cap : ℕ} {s t : SchedState} (hst : SchedStep m cap s t)
    (h : SchedInv m cap s) : SchedInv m cap t := by
  obtain ⟨h1, h2, h3, h4⟩ := h
  cases hst with
  | issue hm hc =>
    refine ⟨hm, ?_, ?_, ?_⟩
    · calc (insert s.nextIdx s.pending).card ≤ s.pending.card + 1 := Finset.card_insert_le _ _
        _ ≤ cap := hc
    · have hn : s.nextIdx ∉ s.collected := by
        intro hmem
        have hx : s.nextIdx ∈ s.pending ∪ s.collected := Finset.mem_union_right _ hmem
        rw [h4, Finset.mem_range] at hx
        exact absurd hx (lt_irrefl _)
      rw [Finset.disjoint_insert_left]
      exact ⟨hn, h3⟩
    · rw [Finset.insert_union, h4, Finset.range_succ]
  | drain done hne hsub =>
    refine ⟨h1, ?_, ?_, ?_⟩
    · exact le_trans (Finset.card_le_card Finset.sdiff_subset) h2
    · rw [Finset.disjoint_union_right]
      exact ⟨Finset.disjoint_of_subset_left Finset.sdiff_subset h3, Finset.sdiff_disjoint⟩
    · rw [← h4, Finset.union_comm s.collected done, ← Finset.union_assoc,
        Finset.sdiff_union_of_subset hsub]

lemma schedInv_reachable {m cap : ℕ} {s : SchedState} (h : SchedReachable m cap s) :
    SchedInv m cap s := by
  induction h with
  | refl => exact schedInv_init m cap
  | tail _ hstep ih => exact schedInv_step hstep ih

lemma sched_collected_of_terminal {m cap : ℕ} {s : SchedState} (h : SchedReachable m cap s)
    (hnext : s.nextIdx = m) (hpend : s.pending = ∅) : s.collected = Finset.range m := by
  have h4 := (schedInv_reachable h).2.2.2
  rw [hpend, hnext, Finset.empty_union] at h4
  exact h4

/-- C1: for every candidate count `m`, every concurrency cap and every
deterministic oracle `err`, any completed run of the evaluation loop (all
`m` candidates issued, no request left in flight) has collected every
candidate index exactly once, and the error curve it extracts has length
`m` with element `i` equal to the oracle's error for candidate `i` — hence
the curve is one and the same for every order in which the drain steps
complete the in-flight requests. -/
theorem c1_scheduler_curve (m cap : ℕ) (err : ℕ → ℚ) (s : SchedState)
    (hreach : SchedReachable m cap s) (hnext : s.nextIdx = m) (hpend : s.pending = ∅) :
    s.collected = Finset.range m ∧
    errorCurve err s = (List.range m).map err ∧
    (errorCurve err s).length = m ∧
    (∀ i, i < m → (errorCurve err s).getD i 0 = err i) ∧
    (∀ s', SchedReachable m cap s' → s'.nextIdx = m → s'.pending = ∅ →
      errorCurve err s' = errorCurve err s) := by
  have hcol := sched_collected_of_terminal hreach hnext hpend
  have hcurve : errorCurve err s = (List.range m).map err := by
    rw [errorCurve, hcol, Finset.sort_range]
  refine ⟨hcol, hcurve, by rw [hcurve]; simp, ?_, ?_⟩
  · intro i hi
    rw [hcurve, List.getD_eq_getElem _ _ (by simpa using hi)]
    simp
  · intro s' h1 h2 h3
    rw [hcurve, errorCurve, sched_collected_of_terminal h1 h2 h3, Finset.sort_range]

/-- Witness for C1: a concrete completed run with two candidates and cap
three (issue 0, issue 1, one drain completing both), checked against the
theorem. -/
theorem c1_scheduler_curve_witness :
    SchedReachable 2 3 ⟨2, ∅, {0, 1}⟩ ∧
    errorCurve (fun i => (i : ℚ)) ⟨2, ∅, {0, 1}⟩ = [0, 1] := by
  have r1 : SchedReachable 2 3 ⟨1, insert 0 ∅, ∅⟩ :=
    Relation.ReflTransGen.refl.tail
      (SchedStep.issue ⟨0, ∅, ∅⟩ (by norm_num) (by simp))
  have r2 : SchedReachable 2 3 ⟨2, insert 1 (insert 0 ∅), ∅⟩ :=
    r1.tail (SchedStep.issue ⟨1, insert 0 ∅, ∅⟩ (by norm_num) (by simp))
  have r3 : SchedReachable 2 3
      ⟨2, insert 1 (insert 0 ∅) \ insert 1 (insert 0 ∅), ∅ ∪ insert 1 (insert 0 ∅)⟩ :=
    r2.tail (SchedStep.drain ⟨2, insert 1 (insert 0 ∅), ∅⟩ (insert 1 (insert 0 ∅))
      (Finset.insert_nonempty _ _) (by simp))
  have hp : insert 1 (insert 0 ∅) \ insert 1 (insert 0 ∅) = (∅ : Finset ℕ) :=
    Finset.sdiff_self _
  have hc : (∅ : Finset ℕ) ∪ insert 1 (insert 0 ∅) = {0, 1} := by
    rw [Finset.empty_union]
    ext x
    simp
    omega
  rw [hp, hc] at r3
  refine ⟨r3, ?_⟩
  have h := (c1_scheduler_curve 2 3 (fun i => (i : ℚ)) ⟨2, ∅, {0, 1}⟩ r3 rfl rfl).2.1
  rw [h]
  norm_num [List.range_succ]

/-- C6: with concurrency cap `numWorkers + 2`, the number of in-flight
oracle requests never exceeds `numWorkers + 2` in any state the evaluation
loop can reach, at every step of the issue/drain loop. -/
theorem c6_inflight_bounded (m numWorkers : ℕ) (s : SchedState)
    (h : SchedReachable m (numWorkers + 2) s) : s.pending.card ≤ numWorkers + 2 :=
  (schedInv_reachable h).2.1

/-- Witness for C6: a concrete reachable mid-run state (three issued, none
yet drained, with `numWorkers = 1`) satisfies the bound. -/
theorem c6_inflight_bounded_witness :
    SchedReachable 5 (1 + 2) ⟨3, insert 2 (insert 1 (insert 0 ∅)), ∅⟩ ∧
    (insert 2 (insert 1 (insert 0 (∅ : Finset ℕ)))).card ≤ 1 + 2 := by
  have r1 : SchedReachable 5 (1 + 2) ⟨1, insert 0 ∅, ∅⟩ :=
    Relation.ReflTransGen.refl.tail
      (SchedStep.issue ⟨0, ∅, ∅⟩ (by norm_num) (by simp))
  have r2 : SchedReachable 5 (1 + 2) ⟨2, insert 1 (insert 0 ∅), ∅⟩ :=
    r1.tail (SchedStep.issue ⟨1, insert 0 ∅, ∅⟩ (by norm_num) (by decide))
  have r3 : SchedReachable 5 (1 + 2) ⟨3, insert 2 (insert 1 (insert 0 ∅)), ∅⟩ :=
    r2.tail (SchedStep.issue ⟨2, insert 1 (insert 0 ∅), ∅⟩ (by norm_num) (by decide))
  exact ⟨r3, c6_inflight_bounded 5 1 _ r3⟩

lemma idxOf_lt_length {a : ℚ} : ∀ {l : List ℚ}, a ∈ l → idxOf a l < l.length := by
  intro l h
  induction l with
  | nil => cases h
  | cons b t ih =>
    simp only [idxOf]
    by_cases hab : a = b
    · simp [hab]
    · rw [if_neg hab]
      have ht : a ∈ t := by
        rcases List.mem_cons.mp h with h1 | h1
        · exact absurd h1 hab
        · exact h1
      simpa using Nat.succ_lt_succ (ih ht)

lemma foldl_max_init_or_mem : ∀ (l : List ℚ) (a : ℚ), l.foldl max a = a ∨ l.foldl max a ∈ l := by
  intro l
  induction l with
  | nil => intro a; exact Or.inl rfl
  | cons b t ih =>
    intro a
    rw [List.foldl_cons]
    rcases ih (max a b) with h | h
    · rcases max_choice a b with h2 | h2
      · exact Or.inl (h.trans h2)
      · exact Or.inr (by rw [h, h2]; exact List.mem_cons_self b t)
    · exact Or.inr (List.mem_cons_of_mem b h)

lemma listMax_mem {l : List ℚ} (h : l ≠ []) : listMax l ∈ l := by
  match l with
  | b :: t =>
    rw [listMax]
    simp only [List.headD_cons, List.foldl_cons, max_self]
    rcases foldl_max_init_or_mem t b with h1 | h1
    · rw [h1]; exact List.mem_cons_self b t
    · exact List.mem_cons_of_mem b h1

lemma argmaxIdx_lt_length {l : List ℚ} (h : l ≠ []) : argmaxIdx l < l.length :=
  idxOf_lt_length (listMax_mem h)

lemma resStep_guard_false {ratios : List ℚ} {acc : List ℕ} {d : ℚ}
    (h : (acc.any fun res => decide ((res : ℤ) - 20 < ((idxOf d ratios) : ℤ)) &&
      decide (((idxOf d ratios) : ℤ) < (res : ℤ) + 20)) = false) :
    ∀ res ∈ acc, 20 ≤ Nat.dist res (idxOf d ratios) := by
  intro res hres
  have hx := List.any_eq_false.mp h res hres
  simp only [Bool.and_eq_true, decide_eq_true_eq, not_and, not_lt] at hx
  simp only [Nat.dist]
  omega

lemma resStep_append (ratios : List ℚ) (acc : List ℕ) (d : ℚ) :
    ∃ t, resStep ratios acc d = acc ++ t := by
  simp only [resStep]
  split
  · exact ⟨[], (List.append_nil acc).symm⟩
  · exact ⟨[idxOf d ratios], rfl⟩

lemma resStep_sep {ratios : List ℚ} {acc : List ℕ} {d : ℚ} (h : Sep20 acc) :
    Sep20 (resStep ratios acc d) := by
  simp only [resStep]
  split
  · exact h
  · rename_i hguard
    rw [Bool.not_eq_true] at hguard
    rw [Sep20, List.pairwise_append]
    refine ⟨h, List.pairwise_singleton _ _, ?_⟩
    intro a ha b hb
    rw [List.mem_singleton] at hb
    subst hb
    exact resStep_guard_false hguard a ha

lemma resStep_nodup {ratios : List ℚ} {acc : List ℕ} {d : ℚ} (h : acc.Nodup) :
    (resStep ratios acc d).Nodup := by
  simp only [resStep]
  split
  · exact h
  · rename_i hguard
    rw [Bool.not_eq_true] at hguard
    rw [List.nodup_append]
    refine ⟨h, List.nodup_singleton _, ?_⟩
    intro a ha hb
    rw [List.mem_singleton] at hb
    rw [hb] at ha
    have := resStep_guard_false hguard _ ha
    simp only [Nat.dist] at this
    omega

lemma resStep_mem {ratios : List ℚ} {acc : List ℕ} {d : ℚ} :
    ∀ x ∈ resStep ratios acc d, x ∈ acc ∨ x = idxOf d ratios := by
  intro x hx
  simp only [resStep] at hx
  split at hx
  · exact Or.inl hx
  · rcases List.mem_append.mp hx with h1 | h1
    · exact Or.inl h1
    · exact Or.inr (List.mem_singleton.mp h1)

lemma addResolutions_append (ratios : List ℚ) :
    ∀ (diffs : List ℚ) (acc : List ℕ), ∃ t, addResolutions ratios diffs acc = acc ++ t := by
  intro diffs
  induction diffs with
  | nil => intro acc; exact ⟨[], (List.append_nil acc).symm⟩
  | cons d ds ih =>
    intro acc
    rw [addResolutions, List.foldl_cons]
    obtain ⟨t1, ht1⟩ := resStep_append ratios acc d
    obtain ⟨t2, ht2⟩ := ih (resStep ratios acc d)
    rw [addResolutions] at ht2
    exact ⟨t1 ++ t2, by rw [ht2, ht1, List.append_assoc]⟩

lemma addResolutions_sep (ratios : List ℚ) :
    ∀ (diffs : List ℚ) (acc : List ℕ), Sep20 acc → Sep20 (addResolutions ratios diffs acc) := by
  intro diffs
  induction diffs with
  | nil => intro acc h; exact h
  | cons d ds ih =>
    intro acc h
    rw [addResolutions, List.foldl_cons]
    exact ih (resStep ratios acc d) (resStep_sep h)

lemma addResolutions_nodup (ratios : List ℚ) :
    ∀ (diffs : List ℚ) (acc : List ℕ), acc.Nodup → (addResolutions ratios diffs acc).Nodup := by
  intro diffs
  induction diffs with
  | nil => intro acc h; exact h
  | cons d ds ih =>
    intro acc h
    rw [addResolutions, List.foldl_cons]
    exact ih (resStep ratios acc d) (resStep_nodup h)

lemma addResolutions_mem (ratios : List ℚ) :
    ∀ (diffs : List ℚ) (acc : List ℕ) (x : ℕ), x ∈ addResolutions ratios diffs acc →
      x ∈ acc ∨ ∃ d ∈ diffs, x = idxOf d ratios := by
  intro diffs
  induction diffs with
  | nil => intro acc x hx; exact Or.inl hx
  | cons d ds ih =>
    intro acc x hx
    rw [addResolutions, List.foldl_cons] at hx
    rcases ih (resStep ratios acc d) x hx with h1 | h1
    · rcases resStep_mem x h1 with h2 | h2
      · exact Or.inl h2
      · exact Or.inr ⟨d, List.mem_cons_self d ds, h2⟩
    · obtain ⟨e, he, hx2⟩ := h1
      exact Or.inr ⟨e, List.mem_cons_of_mem d he, hx2⟩

lemma sep20_foldl_curves : ∀ (curves : List (List ℚ)) (res : List ℕ), Sep20 res →
    Sep20 (curves.foldl (fun acc v => analyzeNewResolutions v acc) res) := by
  intro curves
  induction curves with
  | nil => intro res h; exact h
  | cons c cs ih =>
    intro res h
    rw [List.foldl_cons]
    exact ih _ (addResolutions_sep _ _ _ h)

/-- C5: one call of the peak detector preserves the minimum-separation
invariant — any two distinct entries of the accumulated resolution list
stay at least 20 index positions apart, because an index is appended only
after the separation check against every entry already present — and hence
the invariant holds across every sequence of peak-detection calls of a run
(which starts from the empty list). -/
theorem c5_min_separation (vals : List ℚ) (resolutions : List ℕ) (h : Sep20 resolutions) :
    Sep20 (analyzeNewResolutions vals resolutions) ∧
    ∀ curves : List (List ℚ),
      Sep20 (curves.foldl (fun acc v => analyzeNewResolutions v acc) resolutions) :=
  ⟨addResolutions_sep _ _ _ h, fun curves => sep20_foldl_curves curves resolutions h⟩

/-- Witness for C5 at a concrete separated list and concrete curve. -/
theorem c5_min_separation_witness :
    Sep20 [30, 60] ∧ Sep20 (analyzeNewResolutions [1, 1, 1, (1 : ℚ)/10, 1, 1] [30, 60]) :=
  ⟨by decide, (c5_min_separation [1, 1, 1, (1 : ℚ)/10, 1, 1] [30, 60] (by decide)).1⟩

/-- C2: on the curve `[1, 1, 1, 0.1, 1, 1]` with step 1, offset 500 and an
empty accumulated list, the ratio sequence is `[0, 1, 1, 10, 0.1, 1]`, only
index 3 passes the threshold `(10 - 1) * 0.33`, the accumulated list
becomes `[3]` (resolution `3 * 1 + 500 = 503`), and the best-of-bests
resolution is 503. -/
theorem c2_scenario :
    ratiosOf [1, 1, 1, (1 : ℚ)/10, 1, 1] = [0, 1, 1, 10, 1/10, 1] ∧
    analyzeResults 1 [1, 1, 1, (1 : ℚ)/10, 1, 1] 500 [] =
      some ([0, 1, 1, 10, 1/10, 1], [3], 1, 503) := by
  constructor
  · norm_num [ratiosOf, List.range_succ]
  · norm_num [analyzeResults, analyzeNewResolutions, addResolutions, resStep, differencesOf,
      ratiosOf, sortedDesc, List.insertionSort, List.orderedInsert, List.range_succ, idxOf,
      argmaxIdx, listMax]

/-- C3, evaluation at a failing input: on the scenario curve the detector
picks scan index 3 (resolution 503) whose curve error is `1/10`, yet the
returned error value is `vals[0] = 1`, because the source computes
`bob = vals[bob_idx]` with `bob_idx` the winner's position inside
`self.resolutions` (here 0) instead of the winning scan index (here 3). -/
theorem c3_bob_error_value_bug :
    analyzeResults 1 [1, 1, 1, (1 : ℚ)/10, 1, 1] 500 [] =
      some ([0, 1, 1, 10, 1/10, 1], [3], 1, 503) ∧
    [1, 1, 1, (1 : ℚ)/10, 1, 1].getD 3 0 = 1/10 ∧ (1 : ℚ) ≠ 1/10 := by
  refine ⟨?_, by norm_num, by norm_num⟩
  norm_num [analyzeResults, analyzeNewResolutions, addResolutions, resStep, differencesOf,
    ratiosOf, sortedDesc, List.insertionSort, List.orderedInsert, List.range_succ, idxOf,
    argmaxIdx, listMax]

/-- C4 counterexample: on the flat curve `[1, 1]` every ratio is at most 1
and with an empty accumulated list no index passes the threshold, so the
list stays empty and `np.argmax` over the empty selection raises
`ValueError` (modeled as `none`): the peak detector does have a failure
outcome, contrary to the claim. -/
theorem c4_counterexample :
    (∀ r ∈ ratiosOf [(1 : ℚ), 1], r ≤ 1) ∧ analyzeResults 1 [(1 : ℚ), 1] 500 [] = none := by
  constructor
  · norm_num [ratiosOf, List.range_succ]
  · norm_num [analyzeResults, analyzeNewResolutions, addResolutions, resStep, differencesOf,
      ratiosOf, sortedDesc, List.insertionSort, List.orderedInsert, List.range_succ, idxOf,
      argmaxIdx, listMax]

lemma ratiosOf_length {vals : List ℚ} (h : vals ≠ []) :
    (ratiosOf vals).length = vals.length := by
  match vals with
  | v :: t => simp [ratiosOf]

lemma differencesOf_mem {vals : List ℚ} {d : ℚ} (h : d ∈ differencesOf vals) :
    d ∈ ratiosOf vals := by
  rw [differencesOf] at h
  have h1 := List.take_subset _ _ h
  have h2 := List.mem_filter.mp h1
  exact (List.perm_insertionSort _ _).subset h2.1

lemma analyzeNewResolutions_lt {vals : List ℚ} {res : List ℕ} (hv : vals ≠ [])
    (hres : ∀ r ∈ res, r < vals.length) :
    ∀ x ∈ analyzeNewResolutions vals res, x < vals.length := by
  intro x hx
  rcases addResolutions_mem _ _ _ x hx with h1 | ⟨d, hd, hx2⟩
  · exact hres x h1
  · subst hx2
    have h2 := idxOf_lt_length (differencesOf_mem hd)
    rwa [ratiosOf_length hv] at h2

lemma length_le_of_nodup_lt {l : List ℕ} {n : ℕ} (hnd : l.Nodup) (hlt : ∀ x ∈ l, x < n) :
    l.length ≤ n := by
  have h1 : l.toFinset ⊆ Finset.range n := by
    intro x hx
    rw [Finset.mem_range]
    exact hlt x (List.mem_toFinset.mp hx)
  have h2 := Finset.card_le_card h1
  rwa [List.toFinset_card_of_nodup hnd, Finset.card_range] at h2

/-- C4 amended: the peak detector has no failure outcome only when the
accumulated list is already nonempty at the start of the call (as it is on
every call after the first successful one): for any nonempty curve and any
nonempty duplicate-free accumulated list of valid scan indices, the
detector returns a best-of-bests result even when every ratio is ≤ 1.
With an empty accumulated list and all ratios ≤ 1 it fails instead
(`c4_counterexample`). -/
theorem c4_amended (steps offset : ℕ) (vals : List ℚ) (resolutions : List ℕ)
    (hv : vals ≠ []) (hne : resolutions ≠ []) (hnd : resolutions.Nodup)
    (hlt : ∀ r ∈ resolutions, r < vals.length) :
    (analyzeResults steps vals offset resolutions).isSome = true := by
  have hmem := analyzeNewResolutions_lt hv hlt
  have hne' : analyzeNewResolutions vals resolutions ≠ [] := by
    obtain ⟨t, ht⟩ := addResolutions_append (ratiosOf vals) (differencesOf vals) resolutions
    rw [analyzeNewResolutions, ht]
    intro hcontra
    exact hne (List.append_eq_nil.mp hcontra).1
  have hnd' : (analyzeNewResolutions vals resolutions).Nodup :=
    addResolutions_nodup _ _ _ hnd
  have hlen' : (analyzeNewResolutions vals resolutions).length ≤ vals.length :=
    length_le_of_nodup_lt hnd' hmem
  have hany : ((analyzeNewResolutions vals resolutions).any
      fun r => decide ((ratiosOf vals).length ≤ r)) = false := by
    rw [List.any_eq_false]
    intro x hx
    simp only [decide_eq_true_eq, ratiosOf_length hv]
    exact Nat.not_le.mpr (hmem x hx)
  have hbob : argmaxIdx ((analyzeNewResolutions vals resolutions).map
      fun r => (ratiosOf vals).getD r 0) < vals.length := by
    have h1 : ((analyzeNewResolutions vals resolutions).map
        fun r => (ratiosOf vals).getD r 0) ≠ [] := by
      simpa using hne'
    have h2 := argmaxIdx_lt_length h1
    rw [List.length_map] at h2
    exact lt_of_lt_of_le h2 hlen'
  rw [analyzeResults, hany, List.getElem?_eq_getElem hbob]
  simp [hne']

/-- Witness for C4 amended: with curve `[1, 1]` (all ratios ≤ 1) and the
nonempty accumulated list `[0]`, the detector returns a result. -/
theorem c4_amended_witness : (analyzeResults 1 [(1 : ℚ), 1] 500 [0]).isSome = true :=
  c4_amended 1 500 [(1 : ℚ), 1] [0] (by simp) (by simp) (by simp) (by norm_num)

lemma truncQ_mono {p q : ℚ} (h : p ≤ q) : truncQ p ≤ truncQ q := by
  rw [truncQ, truncQ]
  by_cases hp : 0 ≤ p
  · rw [if_pos hp, if_pos (le_trans hp h)]
    exact Int.floor_mono h
  · rw [if_neg hp]
    by_cases hq : 0 ≤ q
    · rw [if_pos hq]
      have h1 : ⌈p⌉ ≤ 0 := by
        have h2 : p ≤ ((0 : ℤ) : ℚ) := by exact_mod_cast le_of_not_le hp
        exact Int.ceil_le.mpr h2
      exact le_trans h1 (Int.floor_nonneg.mpr hq)
    · rw [if_neg hq]
      exact Int.ceil_mono h

lemma linspace_arg_mono {fstart fend : ℤ} (h : fstart ≤ fend) (num : ℕ) {i j : ℕ}
    (hij : i ≤ j) :
    (fstart : ℚ) + i * ((fend : ℚ) - fstart) / num ≤
      (fstart : ℚ) + j * ((fend : ℚ) - fstart) / num := by
  have h1 : (0 : ℚ) ≤ ((fend : ℚ) - fstart) / num := by
    apply div_nonneg
    · exact sub_nonneg.mpr (by exact_mod_cast h)
    · exact Nat.cast_nonneg num
  have h2 : (i : ℚ) ≤ j := by exact_mod_cast hij
  rw [mul_div_assoc, mul_div_assoc]
  exact add_le_add_left (mul_le_mul_of_nonneg_right h2 h1) _

lemma selectFrames_length (fstart fend : ℤ) (n : ℕ) :
    (selectFrames fstart fend n).length = n := by
  simp [selectFrames, linspaceTrunc]

lemma selectFrames_chain {fstart fend : ℤ} (n : ℕ) (h : fstart ≤ fend) :
    (selectFrames fstart fend n).Chain' (· ≤ ·) := by
  have hp : (linspaceTrunc fstart fend (n + 1)).Pairwise (· ≤ ·) := by
    rw [linspaceTrunc, List.pairwise_map]
    apply List.Pairwise.imp ?_ (List.pairwise_lt_range (n + 1))
    intro a b hab
    exact truncQ_mono (linspace_arg_mono h (n + 1) (le_of_lt hab))
  exact (hp.sublist (List.drop_sublist 1 _)).chain'

lemma selectFrames_getD (fstart fend : ℤ) (n : ℕ) (i : ℕ) (hi : i < n) :
    (selectFrames fstart fend n).getD i 0 =
      truncQ ((fstart : ℚ) + ((i : ℚ) + 1) * ((fend : ℚ) - fstart) / ((n : ℚ) + 1)) := by
  rw [List.getD_eq_getElem _ _ (by rw [selectFrames_length]; exact hi)]
  simp only [selectFrames, linspaceTrunc]
  rw [List.getElem_drop, List.getElem_map, List.getElem_range]
  congr 1
  push_cast
  ring

/-- C8 counterexample: for `start = 0`, `end = 3`, `n = 5` the frame
selector returns `[0, 1, 1, 2, 2]` — not strictly increasing, and not the
right edges of an `n`-interval subdivision of `[0, 3)` (which would be
`[0, 1, 1, 2, 3]`): the source subdivides into `n + 1` intervals and drops
the left endpoint. -/
theorem c8_counterexample :
    selectFrames 0 3 5 = [0, 1, 1, 2, 2] ∧
    ¬ (selectFrames 0 3 5).Chain' (· < ·) ∧
    selectFrames 0 3 5 ≠ rightEdgeFrames 0 3 5 := by
  have h1 : selectFrames 0 3 5 = [0, 1, 1, 2, 2] := by
    norm_num [selectFrames, linspaceTrunc, truncQ, List.range_succ]
  have h2 : rightEdgeFrames 0 3 5 = [0, 1, 1, 2, 3] := by
    norm_num [rightEdgeFrames, truncQ, List.range_succ]
  refine ⟨h1, ?_, ?_⟩
  · rw [h1]
    norm_num [List.chain'_cons, List.chain'_singleton]
  · rw [h1, h2]
    decide

/-- C8 amended: for `n > 0` and `start < end` the frame selector outputs
exactly `n` non-decreasing (not in general strictly increasing) integer
frame indices, element `i` being
`trunc(start + (i + 1) * (end - start) / (n + 1))` — the interior points
of an `(n + 1)`-interval subdivision of `[start, end)` (linear
interpolation with the left endpoint excluded), truncated to integers. -/
theorem c8_frame_selector (fstart fend : ℤ) (n : ℕ) (_hn : 0 < n) (h : fstart < fend) :
    (selectFrames fstart fend n).length = n ∧
    (selectFrames fstart fend n).Chain' (· ≤ ·) ∧
    ∀ i, i < n → (selectFrames fstart fend n).getD i 0 =
      truncQ ((fstart : ℚ) + ((i : ℚ) + 1) * ((fend : ℚ) - fstart) / ((n : ℚ) + 1)) :=
  ⟨selectFrames_length fstart fend n, selectFrames_chain n (le_of_lt h),
    fun i hi => selectFrames_getD fstart fend n i hi⟩

/-- Witness for C8 amended at `start = 0`, `end = 3`, `n = 5`. -/
theorem c8_frame_selector_witness :
    (selectFrames 0 3 5).length = 5 ∧ (selectFrames 0 3 5).Chain' (· ≤ ·) ∧
    (selectFrames 0 3 5).getD 2 0 = truncQ ((0 : ℚ) + ((2 : ℚ) + 1) * (3 - 0) / (5 + 1)) := by
  obtain ⟨w1, w2, w3⟩ := c8_frame_selector 0 3 5 (by norm_num) (by norm_num)
  exact ⟨w1, w2, by have := w3 2 (by norm_num); simpa using this⟩

/-- C7 counterexample: the source validates neither the sample count nor
the frame order.  With `start = 10 ≥ end = 0` and `n = 5 > 0` the
configuration stage succeeds (no `ConfigurationError`, no error at all),
and with `n = 0 ≤ 0` it also succeeds (producing an empty frame list; the
later `frames[0]` access in `get_filename` fails with `IndexError`, which
is not a `ConfigurationError` either). -/
theorem c7_counterexample :
    exceptOk (getnativeSetup 10 (some 0) 5 1 100 200 1000 800 42) = true ∧
    exceptOk (getnativeSetup 0 (some 100) 0 1 100 200 1000 800 42) = true := by
  constructor
  · norm_num [getnativeSetup, exceptOk, defMinH, defMaxH]
  · norm_num [getnativeSetup, exceptOk, defMinH, defMaxH]

/-- C7 amended: for any nonnegative sample count, the configuration stage
raises an error if and only if (after defaulting) `min_h ≥ src.height` or
`min_h ≥ max_h`; the sample count and the frame order are not checked at
all. -/
theorem c7_setup_errors (fstart : ℤ) (fend : Option ℤ) (fsamples : ℤ) (ar : ℚ)
    (minH maxH srcWidth srcHeight numFrames : ℤ) (hfs : 0 ≤ fsamples) :
    exceptOk (getnativeSetup fstart fend fsamples ar minH maxH srcWidth srcHeight numFrames)
        = false ↔
      (srcHeight ≤ defMinH srcHeight minH ∨ defMaxH srcHeight maxH ≤ defMinH srcHeight minH) := by
  simp only [getnativeSetup]
  rw [if_neg (by omega)]
  by_cases h1 : srcHeight ≤ defMinH srcHeight minH
  · rw [if_pos h1]
    simp [exceptOk, h1]
  · rw [if_neg h1]
    by_cases h2 : defMaxH srcHeight maxH ≤ defMinH srcHeight minH
    · rw [if_pos h2]
      simp [exceptOk, h1, h2]
    · rw [if_neg h2]
      simp [exceptOk, h1, h2]

/-- Witness for C7 amended: `min_h = 900` against a source height of 800
does produce an error. -/
theorem c7_setup_errors_witness :
    exceptOk (getnativeSetup 0 none 5 1 900 950 1000 800 42) = false := by
  rw [c7_setup_errors 0 none 5 1 900 950 1000 800 42 (by norm_num)]
  norm_num [defMinH, defMaxH]

/-- C9: at the end of a run, the overstretched flag is set exactly when the
derived width (computed from the final aspect ratio) exceeds the detected
height times the aspect-ratio estimate as captured at the start of the run
plus 0.2, and the near-upper-bound flag is set exactly when the final
height exceeds the configured `max_height` minus the upper-bound
threshold. -/
theorem c9_classification (arStart arFinal : ℚ) (srcWidth bobResolution maxH ubThr : ℤ)
    (bobMae : ℚ) :
    ((runClassify arStart arFinal srcWidth bobResolution bobMae).2.2.2 = true ↔
      (bobResolution : ℚ) * (arStart + 2 / 10) < (getw arFinal srcWidth bobResolution true : ℚ)) ∧
    (nearUbOf bobResolution maxH ubThr = true ↔ maxH - ubThr < bobResolution) := by
  constructor
  · simp [runClassify]
  · simp [nearUbOf]

lemma getD_map_div {v : List ℚ} {c : ℚ} {i : ℕ} :
    (v.map fun x => x / c).getD i 0 = v.getD i 0 / c := by
  by_cases h : i < v.length
  · rw [List.getD_eq_getElem _ _ (by simpa using h), List.getD_eq_getElem _ _ h,
      List.getElem_map]
  · rw [List.getD_eq_default _ _ (by simpa using not_lt.mp h),
      List.getD_eq_default _ _ (not_lt.mp h), zero_div]

lemma convolveSame_map_div (v : List ℚ) (c : ℚ) :
    convolveSame (v.map fun x => x / c) = (convolveSame v).map fun x => x / c := by
  rw [convolveSame, convolveSame, List.length_map, List.map_map]
  apply List.map_congr_left
  intro i _
  simp only [Function.comp_apply, getD_map_div]
  by_cases h0 : i = 0
  · rw [if_pos h0, if_pos h0]
    ring
  · rw [if_neg h0, if_neg h0]
    ring

lemma widthNormalize_map_div (v : List ℚ) {c : ℚ} (hc : c ≠ 0) :
    widthNormalize (v.map fun x => x / c) = widthNormalize v := by
  have key : ∀ a b : ℚ, a / c / (b / c) = a / b := by
    intro a b
    rw [div_eq_mul_inv (a / c), inv_div, div_mul_div_comm, mul_comm c b,
      mul_div_mul_right a b hc]
  rw [widthNormalize, widthNormalize, elemDiv, elemDiv, convolveSame_map_div,
    List.zipWith_map]
  simp only [key]

/-- C10: dividing the summed width-scan curve by any positive constant
before the 3-point-convolution normalization does not change the
normalized curve, hence neither the argmin, the selected best width
`argmin * steps + w_min`, nor the updated aspect ratio `best_w / h` — in
particular dividing by the width-candidate count instead of the
frame-sample count changes nothing downstream. -/
theorem c10_divisor_invariance (v : List ℚ) (c : ℚ) (steps wMin : ℤ) (hgt : ℚ)
    (_hpos : ∀ x ∈ v, 0 < x) (hc : 0 < c) :
    widthNormalize (v.map fun x => x / c) = widthNormalize v ∧
    argminIdx (widthNormalize (v.map fun x => x / c)) = argminIdx (widthNormalize v) ∧
    bestWidth (widthNormalize (v.map fun x => x / c)) steps wMin =
      bestWidth (widthNormalize v) steps wMin ∧
    (bestWidth (widthNormalize (v.map fun x => x / c)) steps wMin : ℚ) / hgt =
      (bestWidth (widthNormalize v) steps wMin : ℚ) / hgt := by
  have h := widthNormalize_map_div v (ne_of_gt hc)
  exact ⟨h, by rw [h], by rw [h], by rw [h]⟩

/-- Witness for C10 at the positive curve `[2, 1, 4]` and divisor 5. -/
theorem c10_divisor_invariance_witness :
    widthNormalize ([(2 : ℚ), 1, 4].map fun x => x / 5) = widthNormalize [(2 : ℚ), 1, 4] :=
  (c10_divisor_invariance [(2 : ℚ), 1, 4] 5 1 700 3 (by norm_num) (by norm_num)).1
